import Mathlib

/-!
Verification of `lloyal::InlinedVector<T, N, Alloc>` from
`src/include/inlined_vector.hpp` (version 5.7), a small-buffer-optimized
vector that stores up to `N` elements inline and transparently migrates to
heap storage (`std::vector`) when that capacity is exceeded.

The embedding is value-level: the container's storage is either an inline
buffer (the list of live elements, at most `N` of them) or a heap vector
(a list of live elements plus a capacity).  Raw memory, pointers and the
allocator are not observable at this level; iterators into the active
buffer are modelled as offsets from `data()`.  A second, separate model
(`MElem` / `spillMoves` / `spillEmplaceBack` below) instruments the
inline-to-heap spill transition with explicit C++ exception behaviour in
order to settle the exception-safety claims about that path.
-/

namespace InlinedVec

variable {α : Type}

/-- Modelled from the spec: the Heap Delegate (`std::vector<T, Alloc>`, spec
section 4.3) is an external collaborator, not part of this repository's
sources.  It is a list of live elements plus a capacity. -/
structure HeapVec (α : Type) where
  data : List α
  cap : Nat
deriving DecidableEq

namespace HeapVec

/-- Modelled from the spec: `std::vector::reserve n` guarantees capacity at
least `n` and never reduces it; on a freshly constructed (capacity-0) vector
it yields capacity exactly `n`. -/
def reserve (hv : HeapVec α) (n : Nat) : HeapVec α := ⟨hv.data, max hv.cap n⟩

/-- Modelled from the spec: `emplace_back` on the heap delegate appends one
element; when the vector is full it grows geometrically (capacity at least
doubles), otherwise capacity is unchanged. -/
def push (hv : HeapVec α) (x : α) : HeapVec α :=
  if hv.data.length < hv.cap then ⟨hv.data ++ [x], hv.cap⟩
  else ⟨hv.data ++ [x], max (2 * hv.cap) (hv.data.length + 1)⟩

/-- Modelled from the spec: `std::vector::shrink_to_fit` reduces capacity to
the current size. -/
def shrink (hv : HeapVec α) : HeapVec α := ⟨hv.data, hv.data.length⟩

end HeapVec

/-- The container's storage state (`std::variant<InlineBuf, HeapVec>`,
line 162).  `inl buf` is the inline buffer whose live elements are `buf`
(the raw slots at indices `[buf.length, N)` are unobservable); `heap hv` is
the heap vector.  The transient `valueless_by_exception` state is normalised
to an empty inline buffer on entry to every operation
(`recover_if_valueless_`, line 194) and is not separately modelled. -/
inductive Storage (α : Type) where
  | inl (buf : List α)
  | heap (hv : HeapVec α)
deriving DecidableEq

/-- Number of live elements, `size()` (line 526). -/
def size : Storage α → Nat
  | .inl buf => buf.length
  | .heap hv => hv.data.length

/-- Capacity, `capacity()` (line 528): `N` while inline, the heap vector's
capacity while on the heap. -/
def capacity (N : Nat) : Storage α → Nat
  | .inl _ => N
  | .heap hv => hv.cap

/-- Storage-alternative test, `is_inline()` (line 197). -/
def is_inline : Storage α → Bool
  | .inl _ => true
  | .heap _ => false

/-- The live element sequence `data()[0 .. size())` of the active storage
(lines 200-210). -/
def toList : Storage α → List α
  | .inl buf => buf
  | .heap hv => hv.data

/-- Emptiness test, `empty()` (line 524): `size() == 0`. -/
def empty (s : Storage α) : Bool := size s == 0

/-- Iterators are raw pointers into the active buffer: `begin() = data()`
and `end() = data() + size()` (lines 496-506).  They are modelled as offsets
from `data()`; `begin()` is offset 0. -/
def beginOff (_ : Storage α) : Nat := 0

/-- Offset of `end()` from `data()`: `size()` (line 502). -/
def endOff (s : Storage α) : Nat := size s

/-- Append, `emplace_back` (lines 586-610).  Inline with room: construct the
new element in the next slot.  Inline and full: spill — reserve a fresh heap
vector of capacity `max(N*2, old_size + old_size/2 + 1)`, move every inline
element into it in order, append the new element, then commit.  Heap:
delegate to the vector's append. -/
def emplace_back (N : Nat) (v : α) (s : Storage α) : Storage α :=
  match s with
  | .inl buf =>
    if buf.length < N then .inl (buf ++ [v])
    else
      let old_size := buf.length
      let new_cap := max (N * 2) (old_size + old_size / 2 + 1)
      let vec := (HeapVec.mk ([] : List α) 0).reserve new_cap
      let vec := buf.foldl HeapVec.push vec
      .heap (vec.push v)
  | .heap hv => .heap (hv.push v)

/-- Append, `push_back` (lines 581-583): both overloads delegate to
`emplace_back`. -/
def push_back (N : Nat) (v : α) (s : Storage α) : Storage α := emplace_back N v s

/-- Single-element insertion before position `pos` (index from `begin()`),
returning the new storage and the offset of the returned iterator.  This
models both overloads, `insert(const_iterator, const T&)` (lines 620-710)
and `insert(const_iterator, T&&)` (lines 713-802): at the value level the
two differ only in whether the staged source is copied or moved, and the
alias check (staging a private copy when `&value` points into the active
buffer, lines 698-709) is the identity on values.  Inline with room: the
append special case and the three relocation strategies (trivial `memmove`,
nothrow-move shift, rebuild-and-swap) all place `v` at index `pos` keeping
every other element in order.  Inline and full: spill into a fresh heap
vector of capacity `max(N*2, old_size + old_size/2 + 1)`, inserting `v` at
its position during the same pass.  Heap: rebuild into a fresh vector
reserved to `old_size + 1` and swap it in.  Every path returns
`begin() + idx`. -/
def insert (N : Nat) (pos : Nat) (v : α) (s : Storage α) : Storage α × Nat :=
  match s with
  | .inl buf =>
    let old_size := buf.length
    if old_size < N then
      if pos = old_size then
        (.inl (buf ++ [v]), pos)
      else
        (.inl (buf.take pos ++ v :: buf.drop pos), pos)
    else
      let new_cap := max (N * 2) (old_size + old_size / 2 + 1)
      let vec := (HeapVec.mk ([] : List α) 0).reserve new_cap
      let vec := (buf.take pos).foldl HeapVec.push vec
      let vec := vec.push v
      let vec := (buf.drop pos).foldl HeapVec.push vec
      (.heap vec, pos)
  | .heap hv =>
    let old_size := hv.data.length
    let new_vec := (HeapVec.mk ([] : List α) 0).reserve (old_size + 1)
    let new_vec := (hv.data.take pos).foldl HeapVec.push new_vec
    let new_vec := new_vec.push v
    let new_vec := (hv.data.drop pos).foldl HeapVec.push new_vec
    (.heap new_vec, pos)

/-- Range erase of `cnt` elements starting at offset `start`,
`erase(const_iterator, const_iterator)` (lines 808-854), returning the new
storage and the offset of the returned iterator.  An empty range returns
immediately (line 812).  Inline: the three strategies (trivial `memmove`,
nothrow-move shift, rebuild-and-swap) all keep exactly the elements outside
`[start, start+cnt)` in order.  Heap: rebuild into a fresh vector reserved
to the surviving count and swap it in. -/
def erase (start cnt : Nat) (s : Storage α) : Storage α × Nat :=
  if cnt = 0 then (s, start)
  else
    match s with
    | .inl buf => (.inl (buf.take start ++ buf.drop (start + cnt)), start)
    | .heap hv =>
      let old_size := hv.data.length
      let keep := old_size - cnt
      let nv := (HeapVec.mk ([] : List α) 0).reserve keep
      let nv := (hv.data.take start).foldl HeapVec.push nv
      let nv := (hv.data.drop (start + cnt)).foldl HeapVec.push nv
      (.heap nv, start)

/-- Capacity request, `reserve` (lines 534-543): no-op when the request does
not exceed the current capacity; inline and above `N`: spill into a fresh
heap vector reserved to the requested capacity; heap: delegate. -/
def reserve (N : Nat) (n : Nat) (s : Storage α) : Storage α :=
  match s with
  | .inl buf =>
    if n ≤ N then .inl buf
    else
      let vec := (HeapVec.mk ([] : List α) 0).reserve n
      .heap (buf.foldl HeapVec.push vec)
  | .heap hv => if n ≤ hv.cap then .heap hv else .heap (hv.reserve n)

/-- Capacity reduction, `shrink_to_fit` (lines 547-564): no-op while inline;
heap with `size ≤ N`: move every element into a fresh inline buffer and
commit; otherwise delegate to the heap vector's own shrink. -/
def shrink_to_fit (N : Nat) (s : Storage α) : Storage α :=
  match s with
  | .inl buf => .inl buf
  | .heap hv =>
    if hv.data.length ≤ N then .inl hv.data
    else .heap hv.shrink

/-- Content removal, `clear` (lines 571-578): destroys all live elements in
place.  The inline buffer's count drops to 0; the heap vector's `clear`
keeps its capacity.  The storage alternative never changes. -/
def clear : Storage α → Storage α
  | .inl _ => .inl []
  | .heap hv => .heap ⟨[], hv.cap⟩

/-- Bounds-checked access, `at` (lines 475-477): `throw std::out_of_range`
when `pos >= size()`, otherwise `data()[pos]`.  The second component is the
container after the call (the body performs no mutation beyond valueless
recovery, which is not modelled). -/
def atIdx (pos : Nat) (s : Storage α) : Except Unit α × Storage α :=
  if size s ≤ pos then (.error (), s)
  else
    (match (toList s)[pos]? with
     | some x => .ok x
     | none => .error (), s)

/-- Structural swap of two inline buffers, `InlineBuf::swap` (lines 149-158):
elements at overlapping indices `[0, min)` are pairwise exchanged; the excess
tail of the longer buffer is move-constructed into the other and destroyed at
the source; finally the counts are exchanged. -/
def inlineBufSwap (a b : List α) : List α × List α :=
  let m := min a.length b.length
  let a1 := b.take m ++ a.drop m
  let b1 := a.take m ++ b.drop m
  if b.length < a.length then (a1.take m, b1 ++ a1.drop m)
  else if a.length < b.length then (a1 ++ b1.drop m, b1.take m)
  else (a1, b1)

/-- Container swap, `swap` (lines 899-926): both inline — the inline
buffers' structural swap; both heap — `std::vector::swap` (pointer
exchange, capacities included); mixed — `std::variant::swap`, which
exchanges the two storages. -/
def swap (x y : Storage α) : Storage α × Storage α :=
  match x, y with
  | .inl a, .inl b => (.inl (inlineBufSwap a b).1, .inl (inlineBufSwap a b).2)
  | .heap u, .heap w => (.heap w, .heap u)
  | x, y => (y, x)

/-- Element of the instrumentation type used to observe the spill
transition's exception behaviour (it mirrors the test suite's value types
with an observable moved-from state): `some n` is a live value `n`, `none`
is a moved-from element. -/
abbrev MElem := Option Nat

/-- Whether move-constructing from element `e` throws, for an element type
whose move constructor throws exactly on the live values selected by `thr`
(so the type's move constructor is not `noexcept` whenever `thr` is
somewhere true).  Moving from an already moved-from element does not
throw. -/
def moveThrows (thr : Nat → Bool) : MElem → Bool
  | some n => thr n
  | none => false

/-- Relocation loop of the spill transition (line 599): each inline element
is taken in order and move-constructed into the heap vector with
`std::move(src_ptr[i])` — unconditionally, not `std::move_if_noexcept`.
`movedSrc` accumulates the source slots already moved from (now moved-from
husks) and `heapAcc` the heap contents built so far.  When a move throws,
the partially built heap vector is destroyed by `catch (...) { throw; }`
and the inline buffer — the moved-from prefix followed by the untouched
remainder — is what the container still holds; that buffer is the error
value. -/
def spillMoves (thr : Nat → Bool) (movedSrc heapAcc : List MElem) :
    List MElem → Except (List MElem) (List MElem)
  | [] => .ok heapAcc
  | e :: rest =>
    if moveThrows thr e then .error (movedSrc ++ e :: rest)
    else spillMoves thr (movedSrc ++ [none]) (heapAcc ++ [e]) rest

/-- Spill transition of `emplace_back` (lines 593-604) for the
instrumentation type, with explicit exception behaviour.  The fresh heap
vector is reserved to `max(N*2, old_size + old_size/2 + 1)`; every inline
element is relocated via `spillMoves`; then the new element is constructed
at the back (line 600), which throws when `thr v`; only then does the
container commit (`storage_ = std::move(vec)`, line 601).  `.ok (l, c)` is
the committed heap storage (contents and capacity); `.error b` means the
exception propagated and the container is still inline holding buffer
`b`. -/
def spillEmplaceBack (thr : Nat → Bool) (N : Nat) (buf : List MElem) (v : Nat) :
    Except (List MElem) (List MElem × Nat) :=
  let new_cap := max (N * 2) (buf.length + buf.length / 2 + 1)
  match spillMoves thr [] [] buf with
  | .error b => .error b
  | .ok heapElems =>
    if thr v then .error (List.replicate buf.length none)
    else .ok (heapElems ++ [some v], new_cap)

/-! ### Helper lemmas -/

theorem size_eq_length_toList (s : Storage α) : size s = (toList s).length := by
  cases s <;> rfl

theorem foldl_push_of_fits (l : List α) (hv : HeapVec α)
    (h : hv.data.length + l.length ≤ hv.cap) :
    l.foldl HeapVec.push hv = ⟨hv.data ++ l, hv.cap⟩ := by
  induction l generalizing hv with
  | nil => simp
  | cons x xs ih =>
    have hlt : hv.data.length < hv.cap := by simp at h; omega
    have hpush : hv.push x = ⟨hv.data ++ [x], hv.cap⟩ := by
      simp [HeapVec.push, hlt]
    rw [List.foldl_cons, hpush, ih]
    · simp
    · simp at h ⊢; omega

theorem insert_ret (N pos : Nat) (v : α) (s : Storage α) :
    (insert N pos v s).2 = pos := by
  cases s with
  | inl buf =>
    by_cases h1 : buf.length < N
    · by_cases h2 : pos = buf.length <;> simp [insert, h1, h2]
    · simp [insert, h1]
  | heap hv => rfl

theorem fresh_build (pre post : List α) (v : α) (c : Nat)
    (h : pre.length + 1 + post.length ≤ c) :
    post.foldl HeapVec.push
        ((pre.foldl HeapVec.push ((HeapVec.mk ([] : List α) 0).reserve c)).push v)
      = ⟨pre ++ v :: post, c⟩ := by
  have e0 : (HeapVec.mk ([] : List α) 0).reserve c = ⟨[], c⟩ := by
    simp [HeapVec.reserve]
  have e1 : pre.foldl HeapVec.push (⟨[], c⟩ : HeapVec α) = ⟨pre, c⟩ := by
    have := foldl_push_of_fits pre (⟨[], c⟩ : HeapVec α) (by simp; omega)
    simpa using this
  have e2 : HeapVec.push (⟨pre, c⟩ : HeapVec α) v = ⟨pre ++ [v], c⟩ := by
    have hlt : pre.length < c := by omega
    simp [HeapVec.push, hlt]
  have e3 := foldl_push_of_fits post (⟨pre ++ [v], c⟩ : HeapVec α)
    (by simp; omega)
  rw [e0, e1, e2, e3]
  simp

theorem insert_toList (N pos : Nat) (v : α) (s : Storage α) (hpos : pos ≤ size s) :
    toList (insert N pos v s).1 = (toList s).take pos ++ v :: (toList s).drop pos := by
  cases s with
  | inl buf =>
    by_cases h1 : buf.length < N
    · by_cases h2 : pos = buf.length
      · subst h2; simp [insert, h1, toList]
      · simp [insert, h1, h2, toList]
    · have hpos' : pos ≤ buf.length := hpos
      simp only [insert, h1, if_false, toList]
      rw [fresh_build]
      simp [List.length_take, List.length_drop]
      omega
  | heap hv =>
    have hpos' : pos ≤ hv.data.length := hpos
    simp only [insert, toList]
    rw [fresh_build]
    simp [List.length_take, List.length_drop]
    omega

theorem spillMoves_ok (thr : Nat → Bool) (rest : List MElem) :
    ∀ movedSrc heapAcc h, spillMoves thr movedSrc heapAcc rest = .ok h →
      h = heapAcc ++ rest := by
  induction rest with
  | nil =>
    intro ms ha h he
    simp [spillMoves] at he
    simp [he]
  | cons x r ih =>
    intro ms ha h he
    by_cases ht : moveThrows thr x = true
    · simp [spillMoves, ht] at he
    · simp [spillMoves, ht] at he
      have := ih _ _ _ he
      simp [this]

theorem spillMoves_error (thr : Nat → Bool) (rest : List MElem) :
    ∀ (k : Nat) (heapAcc e : List MElem),
      spillMoves thr (List.replicate k none) heapAcc rest = .error e →
      ∃ j, j ≤ rest.length ∧ e = List.replicate (k + j) none ++ rest.drop j := by
  induction rest with
  | nil =>
    intro k ha e he
    simp [spillMoves] at he
  | cons x r ih =>
    intro k ha e he
    by_cases ht : moveThrows thr x = true
    · simp [spillMoves, ht] at he
      exact ⟨0, by simp, by simp [← he]⟩
    · simp only [spillMoves, ht, if_false, Bool.false_eq_true] at he
      rw [← List.replicate_succ'] at he
      obtain ⟨j, hj, hje⟩ := ih (k + 1) _ _ he
      refine ⟨j + 1, by simp; omega, ?_⟩
      have : k + (j + 1) = k + 1 + j := by omega
      simpa [this] using hje

theorem inlineBufSwap_eq (a b : List α) : inlineBufSwap a b = (b, a) := by
  unfold inlineBufSwap
  rcases Nat.lt_trichotomy b.length a.length with h | h | h
  · simp [h, Nat.min_eq_right h.le, List.take_left, List.drop_left,
      List.take_append_drop, Nat.lt_asymm h]
  · have hb : ¬ b.length < a.length := by omega
    have ha : ¬ a.length < b.length := by omega
    have hm : min a.length b.length = a.length := by omega
    rw [hm]
    simp only [hb, ha, if_false]
    simp only [List.take_length, List.drop_length, List.append_nil]
    rw [← h]
    simp
  · simp [h, Nat.min_eq_left h.le, Nat.lt_asymm h, List.take_left,
      List.drop_left, List.take_append_drop]

theorem swap_eq (x y : Storage α) : swap x y = (y, x) := by
  cases x <;> cases y <;> simp [swap, inlineBufSwap_eq]

/-! ### Claim theorems -/

/-- Claim C1, counterexample.  C1 asserts that during the spill every inline
element is relocated by move construction only if the element's move
constructor cannot throw (otherwise by copy construction), and that on any
construction failure the original inline storage remains exactly as before
the call (strong guarantee).  The code instead relocates with an
unconditional `std::move(src_ptr[i])` (line 599).  Concrete input: an
element type whose move constructor may throw (here it throws exactly on
the value 5), a full inline buffer `[1,2,3,4]` with `N = 4`, pushing the
value 5.  All four relocations move the elements out of the inline slots
and then constructing the new element throws: the exception propagates with
the container still inline but holding four moved-from husks — not the
original elements, so the strong guarantee fails. -/
theorem spill_strong_guarantee_cex :
    spillEmplaceBack (fun n => n == 5) 4 [some 1, some 2, some 3, some 4] 5
        = .error [none, none, none, none] ∧
      ([none, none, none, none] : List MElem) ≠ [some 1, some 2, some 3, some 4] :=
  ⟨rfl, by decide⟩

/-- Claim C1, amended: during the spill every existing inline element is
relocated into the new heap buffer by unconditional move construction (even
when the element's move constructor may throw); on any construction failure
the partially built heap buffer is discarded and the container remains
inline with its original element count, holding the moved-from husks of the
already-relocated prefix followed by the untouched remaining elements (a
basic, not strong, exception guarantee); when no construction fails the
container commits to heap storage holding the original elements in order
with the new element appended, at capacity
`max(N*2, old_size + old_size/2 + 1)`. -/
theorem spill_relocation_amended (thr : Nat → Bool) (N : Nat) (buf : List MElem)
    (v : Nat) :
    (∀ e, spillEmplaceBack thr N buf v = .error e →
        e.length = buf.length ∧
        ∃ j, j ≤ buf.length ∧ e = List.replicate j none ++ buf.drop j) ∧
    (∀ l c, spillEmplaceBack thr N buf v = .ok (l, c) →
        l = buf ++ [some v] ∧
        c = max (N * 2) (buf.length + buf.length / 2 + 1)) := by
  constructor
  · intro e he
    simp only [spillEmplaceBack] at he
    cases hsm : spillMoves thr [] [] buf with
    | error b =>
      rw [hsm] at he
      simp at he
      subst he
      obtain ⟨j, hj, hje⟩ := spillMoves_error thr buf 0 [] b hsm
      simp only [Nat.zero_add] at hje
      refine ⟨?_, j, hj, hje⟩
      simp [hje, List.length_replicate]
      omega
    | ok heapElems =>
      rw [hsm] at he
      by_cases htv : thr v = true
      · simp [htv] at he
        subst he
        exact ⟨by simp, buf.length, le_refl _, by simp⟩
      · simp [htv] at he
  · intro l c he
    simp only [spillEmplaceBack] at he
    cases hsm : spillMoves thr [] [] buf with
    | error b => rw [hsm] at he; simp at he
    | ok heapElems =>
      rw [hsm] at he
      by_cases htv : thr v = true
      · simp [htv] at he
      · simp [htv] at he
        have hb : heapElems = buf := by simpa using spillMoves_ok thr buf [] [] heapElems hsm
        exact ⟨by rw [← he.1, hb], he.2.symm⟩

/-- Claim C1, witness for the amended theorem: instantiated at the throwing
input of the counterexample. -/
theorem spill_relocation_amended_witness :
    ([none, none, none, none] : List MElem).length
        = ([some 1, some 2, some 3, some 4] : List MElem).length ∧
      ∃ j, j ≤ ([some 1, some 2, some 3, some 4] : List MElem).length ∧
        ([none, none, none, none] : List MElem)
          = List.replicate j none
              ++ ([some 1, some 2, some 3, some 4] : List MElem).drop j :=
  (spill_relocation_amended (fun n => n == 5) 4 [some 1, some 2, some 3, some 4] 5).1
    [none, none, none, none] rfl

/-- Claim C2: a further push on an inline container holding exactly `N`
elements transitions it to heap storage of capacity
`max(2N, old_count + old_count/2 + 1)` (with `old_count = N`), the existing
elements preserved in original order and the new element appended last; a
push on a non-full inline container stays inline and appends. -/
theorem push_overflow_spill (N : Nat) (v : α) :
    (∀ buf : List α, buf.length = N →
        emplace_back N v (.inl buf)
          = .heap ⟨buf ++ [v], max (N * 2) (N + N / 2 + 1)⟩) ∧
    (∀ buf : List α, buf.length < N →
        emplace_back N v (.inl buf) = .inl (buf ++ [v])) := by
  constructor
  · intro buf hlen
    subst hlen
    have hfits : buf.length + 1 + ([] : List α).length
        ≤ max (buf.length * 2) (buf.length + buf.length / 2 + 1) := by
      simp only [List.length_nil]
      omega
    have hb := fresh_build buf [] v _ hfits
    simp only [List.foldl_nil] at hb
    simp only [emplace_back, Nat.lt_irrefl, if_false]
    rw [hb]
  · intro buf h
    simp [emplace_back, h]

/-- Claim C2, witness: the spec's concrete scenario with inline capacity 4 —
pushing 5 onto the full inline `[1,2,3,4]` yields heap contents
`[1,2,3,4,5]` at capacity 8 (greater than 4), and pushing 4 onto the
non-full inline `[1,2,3]` stays inline. -/
theorem push_overflow_spill_witness :
    emplace_back 4 (5 : Nat) (.inl [1, 2, 3, 4]) = .heap ⟨[1, 2, 3, 4, 5], 8⟩ ∧
    emplace_back 4 (4 : Nat) (.inl [1, 2, 3]) = .inl [1, 2, 3, 4] := by
  constructor
  · exact ((push_overflow_spill 4 (5 : Nat)).1 [1, 2, 3, 4] rfl).trans (by decide)
  · exact (push_overflow_spill 4 (4 : Nat)).2 [1, 2, 3] (by decide)

/-- Claim C3, counterexample.  C3 asserts that while heap-backed,
`capacity()` is non-decreasing across every non-shrink operation, including
`insert` and `erase`.  But the heap paths of `insert` and `erase` rebuild
into a freshly allocated vector reserved to exactly the required count
(`old_size + 1`, resp. the surviving count) and swap it in (lines 683-694
and 840-853), which can shrink the capacity.  Concrete input: the reachable
heap container with contents `[1,2,3]` and capacity 10 (obtained with
`N = 2` by three pushes and `reserve(10)`); erasing one element drops
`capacity()` from 10 to 2. -/
theorem heap_capacity_monotone_cex :
    reserve 2 10 (emplace_back 2 3 (emplace_back 2 2 (emplace_back 2 (1 : Nat)
          (.inl []))))
        = Storage.heap ⟨[1, 2, 3], 10⟩ ∧
      capacity 2 ((erase 0 1 (Storage.heap (⟨[1, 2, 3], 10⟩ : HeapVec Nat))).1)
        < capacity 2 (Storage.heap (⟨[1, 2, 3], 10⟩ : HeapVec Nat)) :=
  ⟨rfl, by decide⟩

/-- Claim C3, amended: while heap-backed, `capacity()` is non-decreasing
across append and capacity-request operations (`push_back`/`emplace_back`,
`reserve`); `insert` and `erase` on the heap, however, rebuild into a fresh
vector reserved to exactly the required count and swap it in, so afterwards
`capacity()` equals `old_size + 1` (insert), resp. the surviving count
(erase), which may be smaller than the previous capacity; `shrink_to_fit`
remains the only explicit shrink request. -/
theorem heap_capacity_amended (N : Nat) (hv : HeapVec α) (v : α)
    (n pos start cnt : Nat) :
    capacity N (emplace_back N v (.heap hv)) ≥ capacity N (.heap hv) ∧
    capacity N (reserve N n (.heap hv)) ≥ capacity N (.heap hv) ∧
    (pos ≤ hv.data.length →
      capacity N ((insert N pos v (.heap hv)).1) = hv.data.length + 1) ∧
    (0 < cnt → start + cnt ≤ hv.data.length →
      capacity N ((erase start cnt (.heap hv)).1) = hv.data.length - cnt) := by
  refine ⟨?_, ?_, ?_, ?_⟩
  · by_cases h : hv.data.length < hv.cap
    · simp [emplace_back, capacity, HeapVec.push, h]
    · simp [emplace_back, capacity, HeapVec.push, h]
      omega
  · by_cases h : n ≤ hv.cap <;>
      simp [reserve, capacity, HeapVec.reserve, h]
  · intro hpos
    simp only [insert]
    rw [fresh_build _ _ _ _ (by simp [List.length_take, List.length_drop]; omega)]
    rfl
  · intro hcnt hrange
    have hc0 : ¬ cnt = 0 := by omega
    simp only [erase, hc0, if_false]
    have e1 : (hv.data.take start).foldl HeapVec.push
        ((HeapVec.mk ([] : List α) 0).reserve (hv.data.length - cnt))
          = ⟨hv.data.take start, hv.data.length - cnt⟩ := by
      have h0 : (HeapVec.mk ([] : List α) 0).reserve (hv.data.length - cnt)
          = ⟨[], hv.data.length - cnt⟩ := by simp [HeapVec.reserve]
      rw [h0]
      have := foldl_push_of_fits (hv.data.take start)
        (⟨[], hv.data.length - cnt⟩ : HeapVec α)
        (by simp [List.length_take]; omega)
      simpa using this
    rw [e1]
    rw [foldl_push_of_fits _ _ (by simp [List.length_take, List.length_drop]; omega)]
    rfl

/-- Claim C3, witness for the amended theorem: for the heap container with
contents `[1,2,3]` and capacity 10, inserting at position 1 leaves capacity
`3 + 1 = 4` and erasing one element leaves capacity `3 - 1 = 2`. -/
theorem heap_capacity_amended_witness :
    capacity 2 ((insert 2 1 (7 : Nat) (Storage.heap ⟨[1, 2, 3], 10⟩)).1) = 4 ∧
    capacity 2 ((erase 0 1 (Storage.heap (⟨[1, 2, 3], 10⟩ : HeapVec Nat))).1) = 2 := by
  have h := heap_capacity_amended 2 (⟨[1, 2, 3], 10⟩ : HeapVec Nat) 7 4 1 0 1
  exact ⟨h.2.2.1 (by decide), h.2.2.2 (by decide) (by decide)⟩

/-- Claim C4: for every container and every valid position
`pos ≤ size()`, `insert(pos, value)` increases `size()` by exactly one and
the resulting sequence is the old prefix before `pos`, then `value`, then
the old suffix — so `value` sits at index `pos` and the relative order and
values of all other elements are preserved.  Aliasing a container element
is covered because the alias check stages a private copy of the value
before any mutation, making insertion value-semantic (witness: the spec's
`v = [1,2,3]`, insert copy of `v[0]` at position 1). -/
theorem insert_size_order (N pos : Nat) (v : α) (s : Storage α)
    (hpos : pos ≤ size s) :
    size (insert N pos v s).1 = size s + 1 ∧
    toList (insert N pos v s).1
      = (toList s).take pos ++ v :: (toList s).drop pos := by
  have hp2 : pos ≤ (toList s).length := by
    rw [← size_eq_length_toList]; exact hpos
  have ht := insert_toList N pos v s hpos
  refine ⟨?_, ht⟩
  rw [size_eq_length_toList, size_eq_length_toList, ht]
  simp only [List.length_append, List.length_cons, List.length_take,
    List.length_drop]
  omega

/-- Claim C4, witness: the spec's aliasing scenario — inserting a copy of
`v[0]` (value 1) into `v = [1,2,3]` at position 1 yields `[1,1,2,3]` with
size 4. -/
theorem insert_size_order_witness :
    size (insert 4 1 (1 : Nat) (.inl [1, 2, 3])).1 = 4 ∧
    toList (insert 4 1 (1 : Nat) (.inl [1, 2, 3])).1 = [1, 1, 2, 3] := by
  have h := insert_size_order 4 1 (1 : Nat) (Storage.inl [1, 2, 3]) (by decide)
  exact ⟨h.1, h.2.trans (by decide)⟩

/-- Claim C5: `shrink_to_fit` is a no-op while inline; heap-backed with
`size ≤ N` it transitions to the inline state, making `capacity()` equal
`N` while the element sequence and size are preserved exactly (the
`toList`/`size` conjuncts hold on every path); heap-backed with `size > N`
it only delegates to the heap vector's own shrink. -/
theorem shrink_to_fit_spec (N : Nat) (s : Storage α) :
    (is_inline s = true → shrink_to_fit N s = s) ∧
    toList (shrink_to_fit N s) = toList s ∧
    size (shrink_to_fit N s) = size s ∧
    (∀ hv : HeapVec α, s = .heap hv → hv.data.length ≤ N →
        shrink_to_fit N s = .inl hv.data ∧ capacity N (shrink_to_fit N s) = N) ∧
    (∀ hv : HeapVec α, s = .heap hv → N < hv.data.length →
        shrink_to_fit N s = .heap hv.shrink) := by
  cases s with
  | inl buf =>
    refine ⟨fun _ => rfl, rfl, rfl, ?_, ?_⟩ <;> intro hv heq <;> simp at heq
  | heap hv =>
    by_cases hle : hv.data.length ≤ N
    · refine ⟨by simp [is_inline], ?_, ?_, ?_, ?_⟩
      · simp [shrink_to_fit, hle, toList]
      · simp [shrink_to_fit, hle, size]
      · intro hv' heq hle'
        injection heq with h
        subst h
        exact ⟨by simp [shrink_to_fit, hle], by simp [shrink_to_fit, hle, capacity]⟩
      · intro hv' heq hgt
        injection heq with h
        subst h
        omega
    · refine ⟨by simp [is_inline], ?_, ?_, ?_, ?_⟩
      · simp [shrink_to_fit, hle, toList, HeapVec.shrink]
      · simp [shrink_to_fit, hle, size, HeapVec.shrink]
      · intro hv' heq hle'
        injection heq with h
        subst h
        omega
      · intro hv' heq hgt
        injection heq with h
        subst h
        simp [shrink_to_fit, hle]

/-- Claim C5, witness: with `N = 4`, a heap container holding `[1,2]` at
capacity 10 shrinks to the inline state with capacity 4 and unchanged
contents; an inline container is untouched; a heap container holding six
elements only delegates (capacity becomes its size, stays heap). -/
theorem shrink_to_fit_spec_witness :
    shrink_to_fit 4 (Storage.heap (⟨[1, 2], 10⟩ : HeapVec Nat)) = .inl [1, 2] ∧
    capacity 4 (shrink_to_fit 4 (Storage.heap (⟨[1, 2], 10⟩ : HeapVec Nat))) = 4 ∧
    shrink_to_fit 4 (Storage.inl ([5] : List Nat)) = .inl [5] ∧
    shrink_to_fit 4 (Storage.heap (⟨[1, 2, 3, 4, 5, 6], 10⟩ : HeapVec Nat))
      = .heap ⟨[1, 2, 3, 4, 5, 6], 6⟩ := by
  refine ⟨?_, ?_, ?_, ?_⟩
  · exact ((shrink_to_fit_spec 4
      (Storage.heap (⟨[1, 2], 10⟩ : HeapVec Nat))).2.2.2.1 ⟨[1, 2], 10⟩ rfl
      (by decide)).1
  · exact ((shrink_to_fit_spec 4
      (Storage.heap (⟨[1, 2], 10⟩ : HeapVec Nat))).2.2.2.1 ⟨[1, 2], 10⟩ rfl
      (by decide)).2
  · exact (shrink_to_fit_spec 4 (Storage.inl ([5] : List Nat))).1 rfl
  · exact (shrink_to_fit_spec 4
      (Storage.heap (⟨[1, 2, 3, 4, 5, 6], 10⟩ : HeapVec Nat))).2.2.2.2
      ⟨[1, 2, 3, 4, 5, 6], 10⟩ rfl (by decide)

/-- Claim C6: the bounds-checked accessor `at(pos)` raises the out-of-range
error if and only if `pos ≥ size()`; when `pos < size()` it returns the
element at index `pos`; and the container is unchanged by the call (also in
the failure case). -/
theorem at_bounds (s : Storage α) (pos : Nat) :
    ((atIdx pos s).1 = .error () ↔ size s ≤ pos) ∧
    (∀ x, (toList s)[pos]? = some x → (atIdx pos s).1 = .ok x) ∧
    (atIdx pos s).2 = s := by
  by_cases h : size s ≤ pos
  · refine ⟨by simp [atIdx, h], ?_, by simp [atIdx, h]⟩
    intro x hx
    have hn : (toList s)[pos]? = none := by
      apply List.getElem?_eq_none
      rw [← size_eq_length_toList]
      exact h
    rw [hn] at hx
    cases hx
  · have hlt : pos < (toList s).length := by
      rw [← size_eq_length_toList]; omega
    refine ⟨?_, ?_, by simp [atIdx, h]⟩
    · simp [atIdx, h, List.getElem?_eq_getElem hlt]
    · intro x hx
      simp [atIdx, h, hx]

/-- Claim C6, witness: on the inline container `[7,8]`, `at(1)` returns 8
and `at(5)` raises the out-of-range error. -/
theorem at_bounds_witness :
    (atIdx 1 (Storage.inl ([7, 8] : List Nat))).1 = .ok 8 ∧
    (atIdx 5 (Storage.inl ([7, 8] : List Nat))).1 = .error () := by
  constructor
  · exact (at_bounds (Storage.inl ([7, 8] : List Nat)) 1).2.1 8 rfl
  · exact (at_bounds (Storage.inl ([7, 8] : List Nat)) 5).1.mpr (by decide)

/-- Claim C7: after `clear()` the container satisfies `size() == 0`,
`empty() == true` and `begin() == end()` (the end offset equals the begin
offset); `clear` never releases heap capacity (`capacity()` is unchanged,
in particular while heap-backed) and never changes which storage
alternative is active. -/
theorem clear_spec (N : Nat) (s : Storage α) :
    size (clear s) = 0 ∧
    empty (clear s) = true ∧
    endOff (clear s) = beginOff (clear s) ∧
    capacity N (clear s) = capacity N s ∧
    is_inline (clear s) = is_inline s := by
  cases s <;> simp [clear, size, empty, endOff, beginOff, capacity, is_inline]

/-- Claim C8: `swap(a, b)` exchanges the sizes and the full element
sequences of the two containers exactly, for every combination of storage
states (inline/inline via the inline buffers' structural swap, heap/heap
via the vector swap, mixed via the variant swap). -/
theorem swap_exchanges (a b : Storage α) :
    size (swap a b).1 = size b ∧ size (swap a b).2 = size a ∧
    toList (swap a b).1 = toList b ∧ toList (swap a b).2 = toList a := by
  rw [swap_eq]
  exact ⟨rfl, rfl, rfl, rfl⟩

/-- Claim C9: for every container and every valid position `pos ≤ size()`,
both single-element insert overloads return the iterator `begin() + pos`
(offset `pos` from `data()`), and that iterator designates the newly
inserted element: the element at the returned offset in the resulting
sequence is the inserted value, on every path (inline fast paths, inline
rebuild, spill to heap, heap rebuild). -/
theorem insert_returns_new_elem (N pos : Nat) (v : α) (s : Storage α)
    (hpos : pos ≤ size s) :
    (insert N pos v s).2 = pos ∧
    (toList (insert N pos v s).1)[(insert N pos v s).2]? = some v := by
  have hp2 : pos ≤ (toList s).length := by
    rw [← size_eq_length_toList]; exact hpos
  have hr := insert_ret N pos v s
  refine ⟨hr, ?_⟩
  rw [hr, insert_toList N pos v s hpos]
  have hlen : ((toList s).take pos).length = pos := by
    simp only [List.length_take]
    omega
  rw [List.getElem?_append_right hlen.le, hlen]
  simp

/-- Claim C9, witness: inserting 99 at position 1 of the heap container
`[10,20,30]` returns offset 1, and the element at that offset is 99. -/
theorem insert_returns_new_elem_witness :
    (insert 2 1 (99 : Nat) (Storage.heap ⟨[10, 20, 30], 4⟩)).2 = 1 ∧
    (toList (insert 2 1 (99 : Nat) (Storage.heap ⟨[10, 20, 30], 4⟩)).1)[
      (insert 2 1 (99 : Nat) (Storage.heap ⟨[10, 20, 30], 4⟩)).2]? = some 99 :=
  insert_returns_new_elem 2 1 99 (Storage.heap ⟨[10, 20, 30], 4⟩) (by decide)

/-- Claim C10: the range erase with an empty range, `erase(p, p)`, leaves
the container completely unchanged — same size, same elements in the same
order, same capacity and same active storage alternative — and returns an
iterator to position `p` (offset `start`). -/
theorem erase_empty_range (N start : Nat) (s : Storage α) :
    (erase start 0 s).1 = s ∧
    size (erase start 0 s).1 = size s ∧
    toList (erase start 0 s).1 = toList s ∧
    capacity N (erase start 0 s).1 = capacity N s ∧
    is_inline (erase start 0 s).1 = is_inline s ∧
    (erase start 0 s).2 = start :=
  ⟨rfl, rfl, rfl, rfl, rfl, rfl⟩

end InlinedVec
